import Mathlib

/-!
Verification development for the offline document-processing pipeline
(`document_processor.py`).  Text is modelled as `List Char`; Python floats
are modelled as exact rationals; Python exceptions as `Except`.
All definitions below are transcribed from the source file; definitions
whose name starts with `spec_` transcribe the natural-language
specification instead, for comparison with the source.
-/

set_option maxRecDepth 8000

abbrev Text := List Char

/-- Python `\s` (ASCII range), as used by `re.sub` and `str.split` / `str.strip`. -/
def isSpacePy (c : Char) : Bool :=
  c = ' ' ∨ c = '\t' ∨ c = '\n' ∨ c = '\r' ∨ c = '\x0b' ∨ c = '\x0c'

/-- Python `\w` (ASCII range): alphanumeric or underscore. -/
def isWordChar (c : Char) : Bool :=
  c.isAlphanum ∨ c = '_'

/-- The punctuation kept by `clean_text`: `. , ! ? ; : - ( )`. -/
def keptPunct : List Char := ['.', ',', '!', '?', ';', ':', '-', '(', ')']

/-- A character that survives the class substitution in `clean_text`. -/
def allowedChar (c : Char) : Bool :=
  isWordChar c ∨ isSpacePy c ∨ c ∈ keptPunct

/-- Python `str.lower` (ASCII data only in this pipeline). -/
def lower (t : Text) : Text := t.map Char.toLower

/-- Helper for `subWsRuns`: the flag records whether we are inside a whitespace run. -/
def subWsAux : Bool → Text → Text
  | _, [] => []
  | inRun, c :: cs =>
    if isSpacePy c then
      if inRun then subWsAux true cs else ' ' :: subWsAux true cs
    else c :: subWsAux false cs

/-- Model of `re.sub(r'\s+', ' ', text)`: each maximal whitespace run becomes one space. -/
def subWsRuns (t : Text) : Text := subWsAux false t

/-- Model of `re.sub(r'[^\w\s\.\,\!\?\;\:\-\(\)]', ' ', text)`: each disallowed
character is replaced by a space (the pattern is a single-character class). -/
def mapDisallowed (t : Text) : Text :=
  t.map (fun c => if allowedChar c then c else ' ')

/-- Python `str.strip()`. -/
def pyStrip (t : Text) : Text :=
  ((t.dropWhile isSpacePy).reverse.dropWhile isSpacePy).reverse

/-- `clean_text` from the source: collapse whitespace runs, replace disallowed
characters by spaces, strip. -/
def clean_text (t : Text) : Text :=
  pyStrip (mapDisallowed (subWsRuns t))

/-- Helper for `pyWords`: `acc` is the reversed current word. -/
def pyWordsAux : Text → Text → List Text
  | acc, [] => if acc = [] then [] else [acc.reverse]
  | acc, c :: cs =>
    if isSpacePy c then
      if acc = [] then pyWordsAux [] cs else acc.reverse :: pyWordsAux [] cs
    else pyWordsAux (c :: acc) cs

/-- Python `str.split()` with no separator: maximal nonblank runs. -/
def pyWords (t : Text) : List Text := pyWordsAux [] t

/-- `len(t.split())`: the word count used throughout the source. -/
def wc (t : Text) : ℕ := (pyWords t).length

example : wc "  hello   world ".toList = 2 := by decide
example : clean_text "a @b".toList = "a  b".toList := by decide
example : subWsRuns "a\t\n b".toList = "a b".toList := by decide
example : pyStrip "  ab c ".toList = "ab c".toList := by decide

/-- Helper for `pySplit`; the fuel argument (initially the length of the text)
only serves to make the recursion structural, it never runs out. -/
def pySplitAux (sep : Text) : ℕ → Text → Text → List Text
  | _, acc, [] => [acc.reverse]
  | 0, acc, rest => [acc.reverse ++ rest]
  | fuel + 1, acc, c :: cs =>
    if sep.isPrefixOf (c :: cs) then
      acc.reverse :: pySplitAux sep fuel [] ((c :: cs).drop sep.length)
    else
      pySplitAux sep fuel (c :: acc) cs

/-- Python `str.split(sep)` for a nonempty separator. -/
def pySplit (sep t : Text) : List Text :=
  if sep = [] then [t] else pySplitAux sep t.length [] t

example : pySplit ['\n', '\n'] "ab\n\ncd\n\n".toList =
    ["ab".toList, "cd".toList, []] := by decide
example : pySplit ['\n'] "abcd".toList = ["abcd".toList] := by decide

/-- First-occurrence deduplication, as done by a Python `seen` set scan
(also the behaviour of `collections.Counter` key order). -/
def pyDedupAux {α : Type} [DecidableEq α] (seen : List α) : List α → List α
  | [] => []
  | x :: xs =>
    if x ∈ seen then pyDedupAux seen xs else x :: pyDedupAux (x :: seen) xs

/-- Deduplicate keeping the first occurrence of each element. -/
def pyDedup {α : Type} [DecidableEq α] (l : List α) : List α := pyDedupAux [] l

/-- Order used to model Python's stable descending sort: an element comes first
if its key is larger, or the keys are equal and it occurred earlier. -/
def tieRel {α K : Type} [LinearOrder K] (key : α → K) (p q : ℕ × α) : Prop :=
  key q.2 < key p.2 ∨ (key p.2 = key q.2 ∧ p.1 ≤ q.1)

instance tieRelDec {α K : Type} [LinearOrder K] (key : α → K) :
    DecidableRel (tieRel key) := fun p q => by
  unfold tieRel; infer_instance

instance tieRelTotal {α K : Type} [LinearOrder K] (key : α → K) :
    IsTotal (ℕ × α) (tieRel key) := by
  constructor
  intro p q
  rcases lt_trichotomy (key p.2) (key q.2) with h | h | h
  · exact Or.inr (Or.inl h)
  · rcases Nat.le_total p.1 q.1 with h' | h'
    · exact Or.inl (Or.inr ⟨h, h'⟩)
    · exact Or.inr (Or.inr ⟨h.symm, h'⟩)
  · exact Or.inl (Or.inl h)

instance tieRelTrans {α K : Type} [LinearOrder K] (key : α → K) :
    IsTrans (ℕ × α) (tieRel key) := by
  constructor
  rintro p q r (h₁ | ⟨e₁, i₁⟩) (h₂ | ⟨e₂, i₂⟩)
  · exact Or.inl (h₂.trans h₁)
  · exact Or.inl (e₂ ▸ h₁)
  · exact Or.inl (e₁ ▸ h₂)
  · exact Or.inr ⟨e₁.trans e₂, i₁.trans i₂⟩

/-- Python's `list.sort(key=..., reverse=True)`: a stable descending sort,
modelled by sorting index-decorated elements with the total order `tieRel`. -/
def pySortDescDec {α K : Type} [LinearOrder K] (key : α → K) (l : List α) :
    List (ℕ × α) :=
  l.enum.insertionSort (tieRel key)

/-- The stable descending sort, with the index decoration dropped. -/
def pySortDesc {α K : Type} [LinearOrder K] (key : α → K) (l : List α) : List α :=
  (pySortDescDec key l).map Prod.snd

example : pySortDesc (fun n : ℕ => n % 3) [4, 7, 2, 5, 9] = [2, 5, 4, 7, 9] := by decide

/-- The stopword set of `extract_keywords` (the source lists `'her'` twice;
as membership is all that matters the duplicate is immaterial). -/
def stop_words : List Text :=
  ["the".toList, "a".toList, "an".toList, "and".toList, "or".toList, "but".toList,
   "in".toList, "on".toList, "at".toList, "to".toList, "for".toList, "of".toList,
   "with".toList, "by".toList, "from".toList, "as".toList, "is".toList, "are".toList,
   "was".toList, "were".toList, "be".toList, "been".toList, "being".toList,
   "have".toList, "has".toList, "had".toList, "do".toList, "does".toList,
   "did".toList, "will".toList, "would".toList, "could".toList, "should".toList,
   "may".toList, "might".toList, "can".toList, "shall".toList, "this".toList,
   "that".toList, "these".toList, "those".toList, "i".toList, "you".toList,
   "he".toList, "she".toList, "it".toList, "we".toList, "they".toList,
   "me".toList, "him".toList, "her".toList, "us".toList, "them".toList,
   "my".toList, "your".toList, "his".toList, "its".toList, "our".toList,
   "their".toList]

/-- `re.findall(r'\b\w{3,}\b', text)`: the maximal word-character runs of
length at least three, in order. -/
def findallWords (t : Text) : List Text :=
  (t.splitOnP (fun c => ¬ isWordChar c)).filter (fun w => decide (3 ≤ w.length))

/-- The filtered token stream of `extract_keywords`. -/
def keywordTokens (t : Text) : List Text :=
  (findallWords t).filter (fun w => decide (w ∉ stop_words))

/-- `Counter(words).most_common(n)` keys: distinct words in first-occurrence
order, stably sorted by descending frequency, truncated to `n`. -/
def most_common (l : List Text) (n : ℕ) : List Text :=
  (pySortDesc (fun w => l.count w) (pyDedup l)).take n

/-- `extract_keywords` from the source: clean the lowercased text, tokenize
words of length ≥ 3, drop stopwords, return the top 20 by frequency. -/
def extract_keywords (t : Text) : List Text :=
  most_common (keywordTokens (clean_text (lower t))) 20

example : extract_keywords "the cat saw the dog and the dog saw it".toList =
    ["saw".toList, "dog".toList, "cat".toList] := by decide

/-- The fixed domain lexicon of the processor. -/
def domain_keywords : List (Text × List Text) :=
  [("hr".toList,
    ["employee".toList, "onboarding".toList, "compliance".toList, "form".toList,
     "policy".toList, "training".toList, "benefits".toList, "hiring".toList,
     "recruitment".toList, "performance".toList]),
   ("forms".toList,
    ["fillable".toList, "interactive".toList, "field".toList, "form".toList,
     "signature".toList, "fill".toList, "sign".toList, "input".toList,
     "checkbox".toList, "text field".toList]),
   ("acrobat".toList,
    ["pdf".toList, "acrobat".toList, "adobe".toList, "convert".toList,
     "create".toList, "edit".toList, "export".toList, "share".toList,
     "signature".toList, "form".toList]),
   ("technical".toList,
    ["api".toList, "code".toList, "function".toList, "method".toList,
     "parameter".toList, "configuration".toList, "setup".toList, "install".toList]),
   ("business".toList,
    ["process".toList, "workflow".toList, "management".toList, "strategy".toList,
     "planning".toList, "analysis".toList, "report".toList]),
   ("travel".toList,
    ["itinerary".toList, "booking".toList, "hotel".toList, "flight".toList,
     "destination".toList, "travel".toList, "trip".toList, "vacation".toList])]

/-- The nine fixed action verbs of the scorer. -/
def action_words : List Text :=
  ["create".toList, "manage".toList, "fill".toList, "sign".toList,
   "convert".toList, "edit".toList, "export".toList, "share".toList,
   "process".toList]

/-- The seven fixed instructional phrases of the scorer. -/
def instructional_phrases : List Text :=
  ["step".toList, "how to".toList, "to create".toList, "to fill".toList,
   "to sign".toList, "procedure".toList, "instructions".toList]

/-- The number of strings of `kws` occurring as substrings of `s`
(Python `sum(1 for keyword in kws if keyword in s)`). -/
def countContains (kws : List Text) (s : Text) : ℕ :=
  kws.countP (fun kw => decide (kw <:+: s))

/-- Python `any(phrase in s for phrase in kws)`. -/
def anyContains (kws : List Text) (s : Text) : Bool :=
  kws.any (fun kw => decide (kw <:+: s))

/-- `calculate_relevance_score` from the source, step by step in source order.
(The source also computes `section_keywords`, which it never uses.) -/
def calculate_relevance_score (sec task persona : Text) : ℚ :=
  let section_lower := lower sec
  let task_lower := lower task
  let persona_lower := lower persona
  let task_keywords := extract_keywords task_lower
  let persona_keywords := extract_keywords persona_lower
  let task_matches := countContains task_keywords section_lower
  let persona_matches := countContains persona_keywords section_lower
  let score1 : ℚ := 0 + (task_matches : ℚ) * 2 + (persona_matches : ℚ) * (3 / 2)
  let combined_text := task_lower ++ ' ' :: persona_lower
  let score2 := domain_keywords.foldl
    (fun sc dk =>
      if 0 < countContains dk.2 combined_text then
        sc + (countContains dk.2 section_lower : ℚ) * 1
      else sc) score1
  let action_matches := countContains action_words section_lower
  let score3 := score2 + (action_matches : ℚ) * (3 / 2)
  let word_count := wc sec
  let score4 :=
    if 50 < word_count then score3 * (6 / 5)
    else if word_count < 20 then score3 * (4 / 5)
    else score3
  if anyContains instructional_phrases section_lower then score4 * (13 / 10) else score4

/-- The claimed closed form of the relevance score, written from the spec:
the weighted additive total, then the length multiplier, then the phrase boost. -/
def spec_relevance_score (sec task persona : Text) : ℚ :=
  let sl := lower sec
  let combined := lower task ++ ' ' :: lower persona
  let base : ℚ :=
    (countContains (extract_keywords (lower task)) sl : ℚ) * 2
    + (countContains (extract_keywords (lower persona)) sl : ℚ) * (3 / 2)
    + (domain_keywords.map (fun dk =>
        if 0 < countContains dk.2 combined then (countContains dk.2 sl : ℚ) else 0)).sum
    + (countContains action_words sl : ℚ) * (3 / 2)
  let lenAdj :=
    if 50 < wc sec then base * (6 / 5)
    else if wc sec < 20 then base * (4 / 5)
    else base
  if anyContains instructional_phrases sl then lenAdj * (13 / 10) else lenAdj

/-- Sentence boundary characters `. ! ?` used by `re.split(r'[.!?]+', text)`.
`List.splitOnP` differs from the regex split only by extra empty pieces between
consecutive boundary characters, and every use in the source strips pieces and
drops the blank ones, which makes the two splits interchangeable. -/
def isEnder (c : Char) : Bool := c = '.' ∨ c = '!' ∨ c = '?'

/-- Sentence split over raw text as used by stage three and the summarizer. -/
def splitEnders (t : Text) : List Text := t.splitOnP isEnder

/-- Stage one of `split_sections`: split the cleaned text on blank lines,
keep pieces with enough words, stripped. -/
def stage1of (ct : Text) (minw : ℕ) : List Text :=
  ((pySplit ['\n', '\n'] ct).filter (fun s => decide (minw ≤ wc s))).map pyStrip

/-- Stage two of `split_sections`: split on single newlines, keep pieces with
enough words whose stripped form is not already present. -/
def stage2of (ct : Text) (minw : ℕ) (s1 : List Text) : List Text :=
  ((pySplit ['\n'] ct).filter
    (fun s => decide (minw ≤ wc s ∧ pyStrip s ∉ s1))).map pyStrip

/-- The candidates after stages one and two (stage two runs only when stage one
yielded fewer than three candidates). -/
def s12of (ct : Text) (minw : ℕ) : List Text :=
  stage1of ct minw ++
    (if (stage1of ct minw).length < 3 then stage2of ct minw (stage1of ct minw)
     else [])

/-- The stripped nonempty sentences scanned by stage three. -/
def sentencesOf (ct : Text) : List Text :=
  ((splitEnders ct).map pyStrip).filter (fun s => decide (s ≠ []))

/-- `'. '.join(l)`. -/
def joinDot : List Text → Text
  | [] => []
  | [s] => s
  | s :: r :: rest => s ++ '.' :: ' ' :: joinDot (r :: rest)

/-- The sentence-accumulation scan of stage three.  Returns the emitted groups
together with the final pending group and its accumulated word count; the
source appends a group only when the running word count reaches `minw`, so the
final pending group is dropped. -/
def accumScan (minw : ℕ) (s12 : List Text) :
    List Text → List Text → ℕ → List Text × List Text × ℕ
  | [], grp, cnt => ([], grp, cnt)
  | s :: rest, grp, cnt =>
    let grp' := grp ++ [s]
    let cnt' := cnt + wc s
    if minw ≤ cnt' then
      let res := accumScan minw s12 rest [] 0
      let g := joinDot grp' ++ ['.']
      ((if g ∈ s12 then res.1 else g :: res.1), res.2)
    else
      accumScan minw s12 rest grp' cnt'

/-- Stage three of `split_sections`: the emitted sentence groups. -/
def stage3of (minw : ℕ) (s12 : List Text) (ct : Text) : List Text :=
  (accumScan minw s12 (sentencesOf ct) [] 0).1

/-- All candidates produced by the cascade, in order. -/
def allCandidates (t : Text) (minw : ℕ) : List Text :=
  s12of (clean_text t) minw ++
    (if (s12of (clean_text t) minw).length < 3 then
      stage3of minw (s12of (clean_text t) minw) (clean_text t)
     else [])

/-- The final pass of `split_sections`: one scan with a `seen` set, keeping a
candidate when it is new and has enough words. -/
def dedupFilterAux (minw : ℕ) (seen : List Text) : List Text → List Text
  | [] => []
  | s :: rest =>
    if s ∉ seen ∧ minw ≤ wc s then s :: dedupFilterAux minw (s :: seen) rest
    else dedupFilterAux minw seen rest

/-- `split_sections` from the source. -/
def split_sections (t : Text) (minw : ℕ) : List Text :=
  (dedupFilterAux minw [] (allCandidates t minw)).take 15

/-- The qualifying sentences of `summarize_text`: stripped, nonempty, more
than three words. -/
def qualSentences (t : Text) : List Text :=
  ((splitEnders t).filter (fun s => decide (pyStrip s ≠ [] ∧ 3 < wc s))).map pyStrip

/-- The salient set: the top ten keywords of the whole text. -/
def topKeywordsOf (t : Text) : List Text := (extract_keywords t).take 10

/-- The summarizer's sentence score: twice the keyword overlap with the salient
set, plus one for the first 30% of positions (`i < n * 0.3`, exact at machine
precision for the sizes at hand), plus one for a 10-25 word sentence. -/
def sentScore (top : List Text) (n i : ℕ) (s : Text) : ℕ :=
  (extract_keywords s).countP (fun w => decide (w ∈ top)) * 2
  + (if 10 * i < 3 * n then 1 else 0)
  + (if 10 ≤ wc s ∧ wc s ≤ 25 then 1 else 0)

/-- The `(sentence, score)` pairs of the summarizer, in source order. -/
def sentencePairs (t : Text) : List (Text × ℕ) :=
  let sents := qualSentences t
  let top := topKeywordsOf t
  sents.enum.map (fun p => (p.2, sentScore top sents.length p.1 p.2))

/-- The sentences sorted by score, descending and stable. -/
def summarySorted (t : Text) : List Text :=
  (pySortDesc Prod.snd (sentencePairs t)).map Prod.fst

/-- The greedy selection loop: keep appending sentences while the accumulated
word count fits the budget, stop at the first sentence that does not fit. -/
def greedyPick (maxLen : ℕ) : List Text → ℕ → List Text
  | [], _ => []
  | s :: rest, cur =>
    if cur + wc s ≤ maxLen then s :: greedyPick maxLen rest (cur + wc s) else []

/-- The sentences selected by the summarizer, in selection order. -/
def summarySelection (t : Text) (maxLen : ℕ) : List Text :=
  greedyPick maxLen (summarySorted t) 0

/-- `summarize_text` from the source. -/
def summarize_text (t : Text) (maxLen : ℕ) : Text :=
  if wc t ≤ 30 then t
  else
    let sents := qualSentences t
    if sents.length ≤ 2 then t
    else
      match summarySelection t maxLen with
      | [] => joinDot (sents.take 2) ++ ['.']
      | sel => joinDot sel ++ ['.']

/-- The small filler-word set of the title extractor. -/
def common_words_title : List Text :=
  ["the".toList, "a".toList, "an".toList, "and".toList, "or".toList,
   "but".toList, "in".toList, "on".toList, "at".toList, "to".toList,
   "for".toList, "of".toList, "with".toList]

/-- Number of filler words among the lowercased words of a candidate line. -/
def commonCountTitle (ln : Text) : ℕ :=
  (pyWords (lower ln)).countP (fun w => decide (w ∈ common_words_title))

/-- Whether a stripped line qualifies as a title: nonempty, at least three
words, at most 150 characters, and fewer than half of its lowercased words
are filler words (`count < len * 0.5` is exact in floating point). -/
def titleLineOk (ln : Text) : Bool :=
  decide (ln ≠ [] ∧ 3 ≤ wc ln ∧ ln.length ≤ 150
    ∧ 2 * commonCountTitle ln < (pyWords (lower ln)).length)

/-- `line.replace('\n', ' ')`. -/
def replaceNl (t : Text) : Text := t.map (fun c => if c = '\n' then ' ' else c)

/-- Python slicing `l[:k]`, including the negative-index case. -/
def pyTake (k : ℤ) (l : Text) : Text :=
  if 0 ≤ k then l.take k.toNat else l.take (l.length - (-k).toNat)

/-- The truncation step of the title extractor:
`title[:max_length-3] + "..."` when the title is longer than `max_length`. -/
def truncTitle (maxLen : ℤ) (title : Text) : Text :=
  if maxLen < (title.length : ℤ) then pyTake (maxLen - 3) title ++ "...".toList
  else title

/-- The first qualifying line among the first five lines of the cleaned text,
after the source's replace/strip post-processing. -/
def titleQual (t : Text) : Option Text :=
  ((((pySplit ['\n'] (clean_text t)).take 5).map pyStrip).find? titleLineOk).map
    (fun ln => pyStrip (replaceNl ln))

/-- The fallback title: the first twelve words of the cleaned text. -/
def fallbackTitle (t : Text) : Text :=
  replaceNl (List.intercalate [' '] ((pyWords (clean_text t)).take 12))

/-- `extract_title_from_text` from the source. -/
def extract_title_from_text (t : Text) (maxLen : ℤ) : Text :=
  match titleQual t with
  | some ln => truncTitle maxLen ln
  | none =>
    let title := truncTitle maxLen (fallbackTitle t)
    if title = [] then "Content Section".toList else title

/-- A scored flat record accumulated by the orchestrator. -/
structure ScoredSection where
  document : Text
  page_number : ℕ
  text : Text
  score : ℚ

/-- An `extracted_sections` output entry. -/
structure ExtractedSection where
  document : Text
  section_title : Text
  importance_rank : ℕ
  page_number : ℕ

/-- A `subsection_analysis` output entry. -/
structure SubsectionRecord where
  document : Text
  refined_text : Text
  page_number : ℕ

/-- The orchestrator's global sort, with the index decoration retained. -/
def sortScoredDec (l : List ScoredSection) : List (ℕ × ScoredSection) :=
  pySortDescDec (fun s => s.score) l

/-- The orchestrator's global sort: stable descending on score. -/
def sortScored (l : List ScoredSection) : List ScoredSection :=
  (sortScoredDec l).map Prod.snd

/-- The retained top-k records. -/
def topSections (l : List ScoredSection) (k : ℕ) : List ScoredSection :=
  (sortScored l).take k

/-- The assembled `extracted_sections`, ranks assigned from 1 in sort order. -/
def extractedOf (l : List ScoredSection) (k : ℕ) : List ExtractedSection :=
  (topSections l k).enum.map (fun p =>
    ⟨p.2.document, extract_title_from_text p.2.text 80, p.1 + 1, p.2.page_number⟩)

/-- The assembled `subsection_analysis`, in the same order. -/
def subsectionOf (l : List ScoredSection) (k : ℕ) : List SubsectionRecord :=
  (topSections l k).map (fun s =>
    ⟨s.document, summarize_text s.text 200, s.page_number⟩)

/-- The only uncaught exception the orchestrator can raise after parsing:
a missing `"filename"` key. -/
inductive PyError
  | keyError
deriving DecidableEq

/-- One entry of the configuration's `documents` list; only the presence of
the `"filename"` key matters to the orchestrator. -/
structure DocEntry where
  filename : Option Text

/-- The parsed input configuration, with the persona/task field fallbacks
already resolved. -/
structure InputConfig where
  documents : List DocEntry
  persona_role : Text
  job_task : Text

/-- The metadata record (sans timestamp and version, which are environmental). -/
structure RunMetadata where
  input_documents : List Text
  persona : Text
  job_to_be_done : Text

/-- The assembled output record set. -/
structure OutputData where
  metadata : RunMetadata
  extracted_sections : List ExtractedSection
  subsection_analysis : List SubsectionRecord

/-- `doc["filename"]`: raises `KeyError` when the key is absent. -/
def getFilename (d : DocEntry) : Except PyError Text :=
  match d.filename with
  | some f => .ok f
  | none => .error .keyError

/-- The metadata list comprehension `[doc["filename"] for doc in documents]`,
evaluated left to right, raising on the first missing key. -/
def collectFilenames : List DocEntry → Except PyError (List Text)
  | [] => .ok []
  | d :: ds =>
    match getFilename d with
    | .error e => .error e
    | .ok f =>
      match collectFilenames ds with
      | .error e => .error e
      | .ok rest => .ok (f :: rest)

/-- The per-document page loop: skip blank pages, split into sections, score
each section against the shared task context. -/
def pageSections (jobTask personaRole f : Text) (pages : List (ℕ × Text)) :
    List ScoredSection :=
  pages.foldl (fun acc pg =>
    if pyStrip pg.2 = [] then acc
    else acc ++ (split_sections pg.2 15).map (fun sec =>
      ⟨f, pg.1, sec, calculate_relevance_score sec jobTask personaRole⟩)) []

/-- The document loop.  `fetch` stands for the filesystem / extraction
collaborator: `none` models a path that does not resolve (skipped with a
warning), `some pages` the extracted pages. -/
def gatherScoredAux (fetch : Text → Option (List (ℕ × Text)))
    (jobTask personaRole : Text) :
    List DocEntry → List ScoredSection → Except PyError (List ScoredSection)
  | [], acc => .ok acc
  | d :: ds, acc =>
    match getFilename d with
    | .error e => .error e
    | .ok f =>
      match fetch f with
      | none => gatherScoredAux fetch jobTask personaRole ds acc
      | some pages =>
        gatherScoredAux fetch jobTask personaRole ds
          (acc ++ pageSections jobTask personaRole f pages)

/-- All scored flat records of a run. -/
def gatherScored (fetch : Text → Option (List (ℕ × Text))) (cfg : InputConfig) :
    Except PyError (List ScoredSection) :=
  gatherScoredAux fetch cfg.job_task cfg.persona_role cfg.documents []

/-- `process_documents` from the source, after the configuration has parsed:
build the metadata record, gather and score all sections, sort globally and
assemble the output. -/
def process_documents (fetch : Text → Option (List (ℕ × Text)))
    (cfg : InputConfig) (top_k : ℕ) : Except PyError OutputData :=
  match collectFilenames cfg.documents with
  | .error e => .error e
  | .ok inputDocs =>
    match gatherScored fetch cfg with
    | .error e => .error e
    | .ok scored =>
      .ok ⟨⟨inputDocs, cfg.persona_role, cfg.job_task⟩,
        extractedOf scored top_k, subsectionOf scored top_k⟩

/-- Generic shape of the domain-bonus loop: a conditional accumulation is the
start value plus a sum of conditional terms. -/
theorem foldl_cond_add {β : Type} (p : β → Prop) [DecidablePred p] (f : β → ℚ) :
    ∀ (l : List β) (a : ℚ),
      l.foldl (fun sc x => if p x then sc + f x else sc) a
        = a + (l.map (fun x => if p x then f x else 0)).sum := by
  intro l
  induction l with
  | nil => intro a; simp
  | cons x xs ih =>
    intro a
    by_cases hx : p x <;> simp [hx, ih, add_assoc]

/-- The additive part of the relevance score (the weighted total before the
multiplicative adjustments). -/
def relBase (sec task persona : Text) : ℚ :=
  (countContains (extract_keywords (lower task)) (lower sec) : ℚ) * 2
  + (countContains (extract_keywords (lower persona)) (lower sec) : ℚ) * (3 / 2)
  + (domain_keywords.map (fun dk =>
      if 0 < countContains dk.2 (lower task ++ ' ' :: lower persona) then
        (countContains dk.2 (lower sec) : ℚ)
      else 0)).sum
  + (countContains action_words (lower sec) : ℚ) * (3 / 2)

/-- The length-normalization multiplier. -/
def lenMult (sec : Text) : ℚ :=
  if 50 < wc sec then 6 / 5 else if wc sec < 20 then 4 / 5 else 1

/-- The instructional-phrase multiplier. -/
def phraseMult (sec : Text) : ℚ :=
  if anyContains instructional_phrases (lower sec) then 13 / 10 else 1

/-- The relevance score factors as additive total times the two multipliers. -/
theorem calculate_relevance_score_decomp (sec task persona : Text) :
    calculate_relevance_score sec task persona
      = relBase sec task persona * lenMult sec * phraseMult sec := by
  simp only [calculate_relevance_score, relBase, lenMult, phraseMult]
  rw [foldl_cond_add (fun dk : Text × List Text =>
    0 < countContains dk.2 (lower task ++ ' ' :: lower persona))
    (fun dk => (countContains dk.2 (lower sec) : ℚ) * 1)]
  simp only [mul_one]
  split_ifs <;> ring

/-- The spec's closed form factors the same way. -/
theorem spec_relevance_score_decomp (sec task persona : Text) :
    spec_relevance_score sec task persona
      = relBase sec task persona * lenMult sec * phraseMult sec := by
  simp only [spec_relevance_score, relBase, lenMult, phraseMult]
  split_ifs <;> ring

/-- The additive total is nonnegative. -/
theorem relBase_nonneg (sec task persona : Text) : 0 ≤ relBase sec task persona := by
  unfold relBase
  have hq : (0 : ℚ) ≤ 2 := by norm_num
  have hq' : (0 : ℚ) ≤ 3 / 2 := by norm_num
  have h1 : (0 : ℚ) ≤ (countContains (extract_keywords (lower task)) (lower sec) : ℚ) * 2 :=
    mul_nonneg (Nat.cast_nonneg _) hq
  have h2 : (0 : ℚ) ≤ (countContains (extract_keywords (lower persona)) (lower sec) : ℚ) * (3 / 2) :=
    mul_nonneg (Nat.cast_nonneg _) hq'
  have h4 : (0 : ℚ) ≤ (countContains action_words (lower sec) : ℚ) * (3 / 2) :=
    mul_nonneg (Nat.cast_nonneg _) hq'
  have h3 : (0 : ℚ) ≤ (domain_keywords.map (fun dk =>
      if 0 < countContains dk.2 (lower task ++ ' ' :: lower persona) then
        (countContains dk.2 (lower sec) : ℚ)
      else 0)).sum := by
    apply List.sum_nonneg
    intro x hx
    simp only [List.mem_map] at hx
    obtain ⟨dk, _, rfl⟩ := hx
    split_ifs
    · exact Nat.cast_nonneg _
    · exact le_refl 0
  linarith

/-- The length multiplier is positive. -/
theorem lenMult_pos (sec : Text) : 0 < lenMult sec := by
  unfold lenMult; split_ifs <;> norm_num

/-- The phrase multiplier is positive. -/
theorem phraseMult_pos (sec : Text) : 0 < phraseMult sec := by
  unfold phraseMult; split_ifs <;> norm_num

/-- C1: the relevance score is computed exactly as claimed — weighted task and
persona keyword matches, the activated-domain bonus, the action-verb bonus,
then the length multiplier and the instructional-phrase boost, and the result
is nonnegative. -/
theorem c1_relevance_score_formula (sec task persona : Text) :
    calculate_relevance_score sec task persona = spec_relevance_score sec task persona
    ∧ 0 ≤ calculate_relevance_score sec task persona := by
  constructor
  · rw [calculate_relevance_score_decomp, spec_relevance_score_decomp]
  · rw [calculate_relevance_score_decomp]
    exact mul_nonneg
      (mul_nonneg (relBase_nonneg sec task persona) (le_of_lt (lenMult_pos sec)))
      (le_of_lt (phraseMult_pos sec))

/-- The comprehension errors as soon as some entry lacks the key. -/
theorem collectFilenames_error :
    ∀ (l : List DocEntry), (∃ d ∈ l, d.filename = none) →
      collectFilenames l = .error .keyError := by
  intro l h
  induction l with
  | nil => simp at h
  | cons d ds ih =>
    rcases h with ⟨e, he, hnone⟩
    rcases List.mem_cons.mp he with rfl | hmem
    · simp [collectFilenames, getFilename, hnone]
    · cases hd : d.filename with
      | none => simp [collectFilenames, getFilename, hd]
      | some f => simp [collectFilenames, getFilename, hd, ih ⟨e, hmem, hnone⟩]

/-- C10: a configuration entry without a `"filename"` key makes
`process_documents` abort with the `KeyError` raised while building the
metadata record — for every possible filesystem (`fetch`), so no document is
ever opened or scored and no output is produced. -/
theorem c10_missing_filename_aborts (cfg : InputConfig)
    (h : ∃ d ∈ cfg.documents, d.filename = none) :
    ∀ (fetch : Text → Option (List (ℕ × Text))) (top_k : ℕ),
      process_documents fetch cfg top_k = .error .keyError := by
  intro fetch top_k
  unfold process_documents
  rw [collectFilenames_error cfg.documents h]

/-- A concrete run of C10: one entry with no filename, an arbitrary
filesystem, default `top_k`. -/
def c10cfg : InputConfig :=
  ⟨[⟨none⟩, ⟨some "b.pdf".toList⟩], "User".toList, "Process documents".toList⟩

/-- Witness for C10 at a concrete configuration. -/
theorem c10_missing_filename_aborts_witness :
    (∃ d ∈ c10cfg.documents, d.filename = none) ∧
      process_documents (fun _ => none) c10cfg 5 = .error .keyError := by
  refine ⟨⟨⟨none⟩, by simp [c10cfg], rfl⟩, ?_⟩
  exact c10_missing_filename_aborts c10cfg ⟨⟨none⟩, by simp [c10cfg], rfl⟩ (fun _ => none) 5

/-- The undecorated global sort has the length of its input. -/
theorem sortScored_length (l : List ScoredSection) :
    (sortScored l).length = l.length := by
  unfold sortScored sortScoredDec pySortDescDec
  rw [List.length_map, (List.perm_insertionSort _ _).length_eq, List.enum_length]

/-- The retained top-k slice has length `min k (number of sections)`. -/
theorem topSections_length (l : List ScoredSection) (k : ℕ) :
    (topSections l k).length = min k l.length := by
  unfold topSections
  rw [List.length_take, sortScored_length]

/-- C5: the orchestrator sorts the flat scored list with a stable descending
sort (the decorated sort is a permutation of the indexed input, sorted by
score with original position breaking ties), keeps the first `top_k`, and the
two output arrays have equal length `min top_k (total sections)` with
`importance_rank` equal to the contiguous sequence `1..N` in sorted order. -/
theorem c5_ranked_output (l : List ScoredSection) (k : ℕ) :
    List.Perm (sortScoredDec l) l.enum
    ∧ List.Sorted (tieRel (fun s : ScoredSection => s.score)) (sortScoredDec l)
    ∧ topSections l k = (sortScored l).take k
    ∧ (extractedOf l k).length = min k l.length
    ∧ (subsectionOf l k).length = min k l.length
    ∧ (extractedOf l k).map (fun e => e.importance_rank)
        = List.range' 1 (min k l.length) := by
  refine ⟨List.perm_insertionSort _ _, List.sorted_insertionSort _ _, rfl, ?_, ?_, ?_⟩
  · unfold extractedOf
    rw [List.length_map, List.enum_length, topSections_length]
  · unfold subsectionOf
    rw [List.length_map, topSections_length]
  · have h1 : (extractedOf l k).map (fun e => e.importance_rank)
        = (topSections l k).enum.map (fun p => p.1 + 1) := by
      unfold extractedOf
      rw [List.map_map]
      rfl
    rw [h1]
    have h2 : (topSections l k).enum.map (fun p : ℕ × ScoredSection => p.1 + 1)
        = ((topSections l k).enum.map Prod.fst).map (fun i => i + 1) := by
      rw [List.map_map]
      rfl
    rw [h2, List.enum_map_fst, ← topSections_length l k]
    rw [List.range'_eq_map_range]
    exact (List.map_congr_left (fun i _ => Nat.add_comm 1 i)).symm

/-- Membership in the whitespace-collapsed text: any whitespace character of
the output is the plain space written by the substitution. -/
theorem subWsAux_space_mem {c : Char} :
    ∀ (b : Bool) (t : Text), c ∈ subWsAux b t → isSpacePy c = true → c = ' ' := by
  intro b t
  induction t generalizing b with
  | nil => intro h; simp [subWsAux] at h
  | cons d ds ih =>
    intro h hsp
    cases hd : isSpacePy d with
    | true =>
      simp only [subWsAux, hd, if_true] at h
      cases b with
      | true => exact ih true h hsp
      | false =>
        rcases List.mem_cons.mp h with rfl | h'
        · rfl
        · exact ih true h' hsp
    | false =>
      simp only [subWsAux, hd, Bool.false_eq_true, if_false] at h
      rcases List.mem_cons.mp h with rfl | h'
      · rw [hd] at hsp; cases hsp
      · exact ih false h' hsp

/-- `pyStrip` only removes characters. -/
theorem mem_pyStrip {c : Char} {t : Text} (h : c ∈ pyStrip t) : c ∈ t := by
  unfold pyStrip at h
  rw [List.mem_reverse] at h
  have h1 := (List.dropWhile_suffix isSpacePy).sublist.mem h
  rw [List.mem_reverse] at h1
  exact (List.dropWhile_suffix isSpacePy).sublist.mem h1

/-- The cleaned text contains no newline: the whitespace collapse leaves only
plain spaces, and the class substitution writes only plain spaces. -/
theorem newline_not_mem_clean_text (t : Text) : '\n' ∉ clean_text t := by
  intro h
  have h1 : '\n' ∈ mapDisallowed (subWsRuns t) := mem_pyStrip h
  unfold mapDisallowed at h1
  rw [List.mem_map] at h1
  obtain ⟨d, hd, heq⟩ := h1
  by_cases ha : allowedChar d
  · rw [if_pos ha] at heq
    subst heq
    have := subWsAux_space_mem false t hd (by decide)
    cases this
  · rw [if_neg ha] at heq
    cases heq

/-- Splitting on a separator whose first character does not occur in the text
returns the whole text. -/
theorem pySplitAux_no_sep {s0 : Char} {ss : Text} :
    ∀ (t : Text) (fuel : ℕ) (acc : Text), s0 ∉ t →
      pySplitAux (s0 :: ss) fuel acc t = [acc.reverse ++ t] := by
  intro t
  induction t with
  | nil => intro fuel acc _; cases fuel <;> simp [pySplitAux]
  | cons c cs ih =>
    intro fuel acc h
    have hc : s0 ≠ c := fun he => h (he ▸ List.mem_cons_self c cs)
    cases fuel with
    | zero => simp [pySplitAux]
    | succ f =>
      have hpre : (s0 :: ss).isPrefixOf (c :: cs) = false := by
        simp [List.isPrefixOf, hc]
      simp only [pySplitAux, hpre, Bool.false_eq_true, if_false]
      rw [ih f (c :: acc) (fun hm => h (List.mem_cons_of_mem c hm))]
      simp

/-- `pySplit` on a text free of the separator's first character. -/
theorem pySplit_no_sep {s0 : Char} {ss t : Text} (h : s0 ∉ t) :
    pySplit (s0 :: ss) t = [t] := by
  unfold pySplit
  rw [if_neg (by simp)]
  rw [pySplitAux_no_sep t t.length [] h]
  rfl

/-- The head of a `dropWhile` fails the predicate. -/
theorem dropWhile_head_not {α : Type} (p : α → Bool) :
    ∀ (l : List α) (a : α), (l.dropWhile p).head? = some a → p a = false := by
  intro l
  induction l with
  | nil => intro a h; cases h
  | cons c cs ih =>
    intro a h
    by_cases hc : p c
    · rw [List.dropWhile_cons_of_pos hc] at h
      exact ih a h
    · rw [List.dropWhile_cons_of_neg hc] at h
      cases h
      simpa using hc

/-- The first character of a stripped string is not whitespace. -/
theorem pyStrip_head (t : Text) :
    ∀ c, (pyStrip t).head? = some c → isSpacePy c = false := by
  intro c hc
  unfold pyStrip at hc
  rw [List.head?_reverse] at hc
  obtain ⟨u, hu⟩ := List.dropWhile_suffix (l := (t.dropWhile isSpacePy).reverse) isSpacePy
  have hne : (t.dropWhile isSpacePy).reverse.dropWhile isSpacePy ≠ [] := by
    intro hz; rw [hz] at hc; cases hc
  have h2 : ((t.dropWhile isSpacePy).reverse).getLast? = some c := by
    conv_lhs => rw [← hu]
    rw [List.getLast?_append_of_ne_nil u hne]
    exact hc
  rw [List.getLast?_reverse] at h2
  exact dropWhile_head_not isSpacePy _ c h2

/-- The last character of a stripped string is not whitespace. -/
theorem pyStrip_last (t : Text) :
    ∀ c, (pyStrip t).getLast? = some c → isSpacePy c = false := by
  intro c hc
  unfold pyStrip at hc
  rw [List.getLast?_reverse] at hc
  exact dropWhile_head_not isSpacePy _ c hc

/-- `dropWhile` is the identity when the head fails the predicate. -/
theorem dropWhile_eq_self_of_head {α : Type} (p : α → Bool) (l : List α)
    (h : ∀ a, l.head? = some a → p a = false) : l.dropWhile p = l := by
  cases l with
  | nil => rfl
  | cons c cs => rw [List.dropWhile_cons_of_neg (by simp [h c rfl])]

/-- Stripping is idempotent. -/
theorem pyStrip_idem (t : Text) : pyStrip (pyStrip t) = pyStrip t := by
  have h1 : (pyStrip t).dropWhile isSpacePy = pyStrip t :=
    dropWhile_eq_self_of_head _ _ (pyStrip_head t)
  have h2 : (pyStrip t).reverse.dropWhile isSpacePy = (pyStrip t).reverse := by
    apply dropWhile_eq_self_of_head
    intro a ha
    rw [List.head?_reverse] at ha
    exact pyStrip_last t a ha
  show ((((pyStrip t).dropWhile isSpacePy).reverse.dropWhile isSpacePy)).reverse = pyStrip t
  rw [h1, h2, List.reverse_reverse]

/-- The cleaned text is already stripped. -/
theorem pyStrip_clean_text (t : Text) : pyStrip (clean_text t) = clean_text t :=
  pyStrip_idem _

/-- C9: the cleaned text has no newline, so stages one and two of the
segmenter collapse — together they yield exactly the whole cleaned text when
it has enough words and nothing otherwise, always fewer than three candidates
(hence stage three always runs) — and the title extractor's line scan sees
exactly one line. -/
theorem c9_single_line (t : Text) (minw : ℕ) :
    '\n' ∉ clean_text t
    ∧ s12of (clean_text t) minw
        = (if minw ≤ wc (clean_text t) then [clean_text t] else [])
    ∧ (s12of (clean_text t) minw).length < 3
    ∧ (pySplit ['\n'] (clean_text t)).length = 1 := by
  have hn : '\n' ∉ clean_text t := newline_not_mem_clean_text t
  have hsplit2 : pySplit ['\n', '\n'] (clean_text t) = [clean_text t] :=
    pySplit_no_sep hn
  have hsplit1 : pySplit ['\n'] (clean_text t) = [clean_text t] :=
    pySplit_no_sep hn
  have hs1 : stage1of (clean_text t) minw
      = (if minw ≤ wc (clean_text t) then [clean_text t] else []) := by
    unfold stage1of
    rw [hsplit2]
    by_cases hw : minw ≤ wc (clean_text t)
    · simp [hw, pyStrip_clean_text]
    · simp [hw]
  have hs12 : s12of (clean_text t) minw
      = (if minw ≤ wc (clean_text t) then [clean_text t] else []) := by
    unfold s12of
    rw [hs1]
    by_cases hw : minw ≤ wc (clean_text t)
    · have hst2 : stage2of (clean_text t) minw [clean_text t] = [] := by
        unfold stage2of
        rw [hsplit1]
        simp [pyStrip_clean_text, hw]
      simp only [if_pos hw]
      rw [if_pos (by simp), hst2, List.append_nil]
    · have hst2 : stage2of (clean_text t) minw [] = [] := by
        unfold stage2of
        rw [hsplit1]
        simp [hw]
      simp only [if_neg hw]
      rw [if_pos (by simp), hst2]
      rfl
  refine ⟨hn, hs12, ?_, by rw [hsplit1]; rfl⟩
  rw [hs12]
  by_cases hw : minw ≤ wc (clean_text t) <;> simp [hw]

/-- The spec's formulation of the whitespace collapse, written independently:
a whitespace character starts (or continues) a run that becomes one space. -/
def specCollapse : Text → Text
  | [] => []
  | c :: cs =>
    if isSpacePy c then ' ' :: specCollapse (cs.dropWhile isSpacePy)
    else c :: specCollapse cs
termination_by t => t.length
decreasing_by
  · have := (List.dropWhile_suffix (l := cs) isSpacePy).sublist.length_le
    simp only [List.length_cons]
    omega
  · simp

/-- Inside a run, the collapsing scan is the same as skipping the rest of the
run. -/
theorem subWsAux_true_eq : ∀ cs : Text,
    subWsAux true cs = subWsAux false (cs.dropWhile isSpacePy) := by
  intro cs
  induction cs with
  | nil => rfl
  | cons d ds ih =>
    cases hd : isSpacePy d with
    | true =>
      rw [List.dropWhile_cons_of_pos hd]
      simp only [subWsAux, hd, if_true]
      exact ih
    | false =>
      rw [List.dropWhile_cons_of_neg (by simp [hd])]
      simp only [subWsAux, hd, Bool.false_eq_true, if_false]

/-- The source's substitution scan equals the spec's run-collapse. -/
theorem subWsRuns_eq_specCollapse (t : Text) : subWsRuns t = specCollapse t := by
  unfold subWsRuns
  induction t using specCollapse.induct with
  | case1 => simp [specCollapse, subWsAux]
  | case2 c cs hc ih =>
    simp only [specCollapse, subWsAux, hc, if_true, Bool.false_eq_true, if_false]
    rw [subWsAux_true_eq]
    exact congrArg _ ih
  | case3 c cs hc ih =>
    simp only [specCollapse, subWsAux, hc, if_true, Bool.false_eq_true, if_false]
    exact congrArg _ ih

/-- The claim's reading of the Normalizer: collapse whitespace runs, then
REMOVE (not replace) every disallowed character, then trim. -/
def spec_clean_remove (t : Text) : Text :=
  pyStrip ((specCollapse t).filter allowedChar)

/-- A concrete input on which the source's Normalizer and the claimed one
disagree. -/
def c7t : Text := "a @b".toList

/-- C7 fails on the code: `clean_text` replaces the disallowed `@` with a
space instead of removing it, yielding `"a  b"` — which both differs from the
claimed removal semantics and contains a run of two spaces. -/
theorem c7_clean_text_counterexample :
    clean_text c7t = "a  b".toList
    ∧ spec_clean_remove c7t = "a b".toList
    ∧ clean_text c7t ≠ spec_clean_remove c7t
    ∧ [' ', ' '] <:+: clean_text c7t := by
  have he : specCollapse c7t = subWsRuns c7t := (subWsRuns_eq_specCollapse c7t).symm
  have h1 : clean_text c7t = "a  b".toList := by decide
  have h2 : spec_clean_remove c7t = "a b".toList := by
    unfold spec_clean_remove
    rw [he]
    decide
  refine ⟨h1, h2, ?_, by decide⟩
  rw [h1, h2]
  decide

/-- C7 amended: `clean_text` collapses whitespace runs to one space, replaces
every disallowed character WITH A SPACE, and trims; consequently the output
has no leading or trailing whitespace (but consecutive spaces can occur where
a disallowed character was adjacent to whitespace). -/
theorem c7_clean_text_amended (t : Text) :
    clean_text t = pyStrip (mapDisallowed (specCollapse t))
    ∧ (∀ c, (clean_text t).head? = some c → isSpacePy c = false)
    ∧ (∀ c, (clean_text t).getLast? = some c → isSpacePy c = false) := by
  refine ⟨?_, ?_, ?_⟩
  · unfold clean_text
    rw [subWsRuns_eq_specCollapse]
  · intro c h
    exact pyStrip_head (mapDisallowed (subWsRuns t)) c h
  · intro c h
    exact pyStrip_last (mapDisallowed (subWsRuns t)) c h

/-- A space splits the word scan in two, whatever came before. -/
theorem pyWordsAux_append_space (y : Text) :
    ∀ (x acc : Text), pyWordsAux acc (x ++ ' ' :: y) = pyWordsAux acc x ++ pyWords y := by
  have hsp : isSpacePy ' ' = true := rfl
  intro x
  induction x with
  | nil =>
    intro acc
    by_cases h : acc = []
    · subst h
      simp only [List.nil_append, pyWordsAux, hsp, if_true, pyWords]
    · simp only [List.nil_append, pyWordsAux, hsp, if_true, if_neg h, pyWords,
        List.cons_append, List.nil_append]
  | cons c cs ih =>
    intro acc
    cases hc : isSpacePy c with
    | true =>
      by_cases h : acc = []
      · subst h
        simp only [List.cons_append, pyWordsAux, hc, if_true]
        exact ih []
      · simp only [List.cons_append, pyWordsAux, hc, if_true, if_neg h,
          List.append_eq, ih []]
    | false =>
      simp only [List.cons_append, pyWordsAux, hc, Bool.false_eq_true, if_false]
      exact ih (c :: acc)

/-- `pyWords` distributes over a separating space. -/
theorem pyWords_append_space (x y : Text) :
    pyWords (x ++ ' ' :: y) = pyWords x ++ pyWords y :=
  pyWordsAux_append_space y x []

/-- Word counts add over a separating space. -/
theorem wc_append_space (x y : Text) : wc (x ++ ' ' :: y) = wc x + wc y := by
  unfold wc
  rw [pyWords_append_space, List.length_append]

/-- Scanning a fully blank text only flushes the accumulator. -/
theorem pyWordsAux_all_space :
    ∀ (w : Text), (∀ c ∈ w, isSpacePy c = true) →
      ∀ acc, pyWordsAux acc w = if acc = [] then [] else [acc.reverse] := by
  intro w
  induction w with
  | nil => intro _ acc; rfl
  | cons d ds ih =>
    intro hw acc
    have hd : isSpacePy d = true := hw d (List.mem_cons_self d ds)
    have hds : ∀ c ∈ ds, isSpacePy c = true :=
      fun c hc => hw c (List.mem_cons_of_mem d hc)
    by_cases h : acc = []
    · subst h
      simp only [pyWordsAux, hd, if_true]
      exact ih hds []
    · simp only [pyWordsAux, hd, if_true, if_neg h, ih hds []]

/-- A fully blank suffix does not change the word scan. -/
theorem pyWordsAux_append_all_space {w : Text}
    (hw : ∀ c ∈ w, isSpacePy c = true) :
    ∀ (x acc : Text), pyWordsAux acc (x ++ w) = pyWordsAux acc x := by
  intro x
  induction x with
  | nil =>
    intro acc
    rw [List.nil_append]
    exact pyWordsAux_all_space w hw acc
  | cons c cs ih =>
    intro acc
    cases hc : isSpacePy c with
    | true =>
      by_cases h : acc = []
      · subst h
        simp only [List.cons_append, pyWordsAux, hc, if_true]
        exact ih []
      · simp only [List.cons_append, pyWordsAux, hc, if_true, if_neg h,
          List.append_eq, ih []]
    | false =>
      simp only [List.cons_append, pyWordsAux, hc, Bool.false_eq_true, if_false]
      exact ih (c :: acc)

/-- Leading whitespace does not change the words. -/
theorem pyWords_dropWhile_space (t : Text) :
    pyWords (t.dropWhile isSpacePy) = pyWords t := by
  induction t with
  | nil => rfl
  | cons c cs ih =>
    cases hc : isSpacePy c with
    | true =>
      rw [List.dropWhile_cons_of_pos hc]
      rw [ih]
      show pyWordsAux [] cs = pyWords (c :: cs)
      unfold pyWords
      simp only [pyWordsAux, hc, if_true, if_pos rfl]
    | false => rw [List.dropWhile_cons_of_neg (by simp [hc])]

/-- Stripping does not change the words. -/
theorem pyWords_pyStrip (t : Text) : pyWords (pyStrip t) = pyWords t := by
  have hdecomp : t.dropWhile isSpacePy
      = pyStrip t ++ ((t.dropWhile isSpacePy).reverse.takeWhile isSpacePy).reverse := by
    unfold pyStrip
    rw [← List.reverse_append, List.takeWhile_append_dropWhile, List.reverse_reverse]
  have hall : ∀ c ∈ ((t.dropWhile isSpacePy).reverse.takeWhile isSpacePy).reverse,
      isSpacePy c = true := by
    intro c hc
    rw [List.mem_reverse] at hc
    exact List.mem_takeWhile_imp hc
  have h1 : pyWords (t.dropWhile isSpacePy) = pyWords (pyStrip t) := by
    rw [hdecomp]
    exact pyWordsAux_append_all_space hall (pyStrip t) []
  rw [← h1, pyWords_dropWhile_space]

/-- Stripping does not change the word count. -/
theorem wc_pyStrip (t : Text) : wc (pyStrip t) = wc t :=
  congrArg List.length (pyWords_pyStrip t)

/-- A nonempty accumulator always flushes at least one word. -/
theorem pyWordsAux_pos :
    ∀ (e acc : Text), acc ≠ [] → 1 ≤ (pyWordsAux acc e).length := by
  intro e
  induction e with
  | nil =>
    intro acc h
    simp [pyWordsAux, h]
  | cons c cs ih =>
    intro acc h
    cases hc : isSpacePy c with
    | true => simp [pyWordsAux, hc, h]
    | false =>
      simp only [pyWordsAux, hc, Bool.false_eq_true, if_false]
      exact ih (c :: acc) (by simp)

/-- Appending text never lowers the number of scanned words. -/
theorem pyWordsAux_mono (e : Text) :
    ∀ (x acc : Text), (pyWordsAux acc x).length ≤ (pyWordsAux acc (x ++ e)).length := by
  intro x
  induction x with
  | nil =>
    intro acc
    by_cases h : acc = []
    · subst h
      simp [pyWordsAux]
    · rw [List.nil_append]
      simp only [pyWordsAux, if_neg h, List.length_cons, List.length_nil]
      exact pyWordsAux_pos e acc h
  | cons c cs ih =>
    intro acc
    cases hc : isSpacePy c with
    | true =>
      by_cases h : acc = []
      · subst h
        simp only [List.cons_append, pyWordsAux, hc, if_true]
        exact ih []
      · simp only [List.cons_append, pyWordsAux, hc, if_true, if_neg h,
          List.length_cons, List.append_eq]
        exact Nat.succ_le_succ (ih [])
    | false =>
      simp only [List.cons_append, pyWordsAux, hc, Bool.false_eq_true, if_false]
      exact ih (c :: acc)

/-- C6's backbone: word count is monotone under appending. -/
theorem wc_mono (x e : Text) : wc x ≤ wc (x ++ e) :=
  pyWordsAux_mono e x []

/-- The last element of a cons with nonempty tail. -/
theorem getLast?_cons_of_ne_nil {α : Type} (d : α) {ds : List α} (h : ds ≠ []) :
    (d :: ds).getLast? = ds.getLast? := by
  obtain ⟨e, es, rfl⟩ := List.exists_cons_of_ne_nil h
  rfl

/-- Appending one nonblank character to a text ending in a nonblank character
does not change the word count (the character joins the last word). -/
theorem pyWordsAux_append_char {c : Char} (hc : isSpacePy c = false) :
    ∀ (x acc : Text), (x = [] → acc ≠ []) →
      (∀ d, x.getLast? = some d → isSpacePy d = false) →
      (pyWordsAux acc (x ++ [c])).length = (pyWordsAux acc x).length := by
  intro x
  induction x with
  | nil =>
    intro acc hacc _
    have h := hacc rfl
    rw [List.nil_append]
    simp [pyWordsAux, hc, h]
  | cons d ds ih =>
    intro acc hacc hlast
    cases hd : isSpacePy d with
    | true =>
      have hds : ds ≠ [] := by
        intro hz
        subst hz
        have := hlast d rfl
        rw [hd] at this
        cases this
      have hlast' : ∀ e, ds.getLast? = some e → isSpacePy e = false := by
        intro e he
        apply hlast
        rw [getLast?_cons_of_ne_nil d hds]
        exact he
      by_cases h : acc = []
      · subst h
        simp only [List.cons_append, pyWordsAux, hd, if_true]
        exact ih [] (fun hz => absurd hz hds) hlast'
      · simp only [List.cons_append, pyWordsAux, hd, if_true, if_neg h,
          List.length_cons, List.append_eq]
        rw [ih [] (fun hz => absurd hz hds) hlast']
    | false =>
      have hlast' : ∀ e, ds.getLast? = some e → isSpacePy e = false := by
        intro e he
        by_cases hds : ds = []
        · subst hds; cases he
        · apply hlast
          rw [getLast?_cons_of_ne_nil d hds]
          exact he
      simp only [List.cons_append, pyWordsAux, hd, Bool.false_eq_true, if_false]
      exact ih (d :: acc) (fun _ => by simp) hlast'

/-- Word-count form of the previous lemma. -/
theorem wc_append_char {x : Text} {c : Char} (hc : isSpacePy c = false)
    (hx : x ≠ []) (hlast : ∀ d, x.getLast? = some d → isSpacePy d = false) :
    wc (x ++ [c]) = wc x :=
  pyWordsAux_append_char hc x [] (fun h => absurd h hx) hlast

/-- A sentence as handled by stage three and the summarizer: nonempty with a
nonblank last character (both are guaranteed by the strip-and-filter step). -/
def CleanSent (s : Text) : Prop :=
  s ≠ [] ∧ ∀ d, s.getLast? = some d → isSpacePy d = false

/-- Every sentence produced by the strip-and-filter step is clean. -/
theorem sentencesOf_clean (ct : Text) : ∀ s ∈ sentencesOf ct, CleanSent s := by
  intro s hs
  unfold sentencesOf at hs
  rw [List.mem_filter] at hs
  obtain ⟨hmem, hne⟩ := hs
  rw [List.mem_map] at hmem
  obtain ⟨r, _, rfl⟩ := hmem
  exact ⟨by simpa using hne, fun d hd => pyStrip_last r d hd⟩

/-- The word count of a group `'. '.join(grp) + '.'` is the sum of the word
counts of its clean sentences. -/
theorem wc_joinDot_dot :
    ∀ (l : List Text), (∀ s ∈ l, CleanSent s) → l ≠ [] →
      wc (joinDot l ++ ['.']) = (l.map wc).sum := by
  have hdot : isSpacePy '.' = false := rfl
  intro l
  induction l with
  | nil => intro _ h; cases h rfl
  | cons s rest ih =>
    intro hcl _
    obtain ⟨hne, hlast⟩ := hcl s (List.mem_cons_self s rest)
    cases rest with
    | nil =>
      show wc (s ++ ['.']) = (([s].map wc)).sum
      rw [wc_append_char hdot hne hlast]
      simp
    | cons r rest' =>
      have hsplit : (joinDot (s :: r :: rest')) ++ ['.']
          = (s ++ ['.']) ++ ' ' :: (joinDot (r :: rest') ++ ['.']) := by
        show (s ++ '.' :: ' ' :: joinDot (r :: rest')) ++ ['.'] = _
        simp
      rw [hsplit]
      unfold wc
      rw [pyWords_append_space, List.length_append]
      have h1 : (pyWords (s ++ ['.'])).length = (pyWords s).length :=
        wc_append_char hdot hne hlast
      rw [h1]
      have h2 := ih (fun x hx => hcl x (List.mem_cons_of_mem s hx))
        (List.cons_ne_nil r rest')
      unfold wc at h2
      rw [h2]
      simp

/-- Invariants of the accumulation scan: the running count is the word count
of the pending group; the pending group, when nonempty, is always below the
threshold (that is why it is dropped at end-of-text); every emitted group has
at least `minw` words; and the final pending group is a suffix of the
sentence stream. -/
theorem accumScan_spec (minw : ℕ) (s12 : List Text) :
    ∀ (sents grp : List Text) (cnt : ℕ),
      (∀ s ∈ sents, CleanSent s) → (∀ s ∈ grp, CleanSent s) →
      cnt = (grp.map wc).sum → (grp ≠ [] → cnt < minw) →
      ((accumScan minw s12 sents grp cnt).2.2
          = (((accumScan minw s12 sents grp cnt).2.1).map wc).sum)
      ∧ ((accumScan minw s12 sents grp cnt).2.1 ≠ []
          → (accumScan minw s12 sents grp cnt).2.2 < minw)
      ∧ (∀ g ∈ (accumScan minw s12 sents grp cnt).1, minw ≤ wc g)
      ∧ List.IsSuffix (accumScan minw s12 sents grp cnt).2.1 (grp ++ sents) := by
  intro sents
  induction sents with
  | nil =>
    intro grp cnt _ _ hcnt hlt
    refine ⟨hcnt, hlt, by simp [accumScan], ?_⟩
    simp only [accumScan, List.append_nil]
    exact List.suffix_refl grp
  | cons s rest ih =>
    intro grp cnt hcs hcg hcnt hlt
    have hcs' : ∀ x ∈ rest, CleanSent x := fun x hx => hcs x (List.mem_cons_of_mem s hx)
    have hs : CleanSent s := hcs s (List.mem_cons_self s rest)
    by_cases hth : minw ≤ cnt + wc s
    · have hres := ih [] 0 hcs' (by simp) (by simp) (by simp)
      have heq : accumScan minw s12 (s :: rest) grp cnt
          = ((if joinDot (grp ++ [s]) ++ ['.'] ∈ s12 then
                (accumScan minw s12 rest [] 0).1
              else (joinDot (grp ++ [s]) ++ ['.']) :: (accumScan minw s12 rest [] 0).1),
             (accumScan minw s12 rest [] 0).2) := by
        simp only [accumScan, if_pos hth]
      rw [heq]
      refine ⟨hres.1, hres.2.1, ?_, ?_⟩
      · intro g hg
        have hgw : minw ≤ wc (joinDot (grp ++ [s]) ++ ['.']) := by
          have hclean : ∀ x ∈ grp ++ [s], CleanSent x := by
            intro x hx
            rcases List.mem_append.mp hx with hx' | hx'
            · exact hcg x hx'
            · rw [List.mem_singleton] at hx'
              subst hx'
              exact hs
          rw [wc_joinDot_dot (grp ++ [s]) hclean (by simp)]
          rw [List.map_append, List.sum_append, ← hcnt]
          simpa using hth
        by_cases hin : joinDot (grp ++ [s]) ++ ['.'] ∈ s12
        · rw [if_pos hin] at hg
          exact hres.2.2.1 g hg
        · rw [if_neg hin] at hg
          rcases List.mem_cons.mp hg with rfl | hg'
          · exact hgw
          · exact hres.2.2.1 g hg'
      · have h1 := hres.2.2.2
        rw [List.nil_append] at h1
        have h2 : List.IsSuffix rest (grp ++ s :: rest) :=
          ((List.suffix_cons s rest).trans (List.suffix_append grp (s :: rest)))
        exact h1.trans h2
    · have heq : accumScan minw s12 (s :: rest) grp cnt
          = accumScan minw s12 rest (grp ++ [s]) (cnt + wc s) := by
        simp only [accumScan, if_neg hth]
      have hclean : ∀ x ∈ grp ++ [s], CleanSent x := by
        intro x hx
        rcases List.mem_append.mp hx with hx' | hx'
        · exact hcg x hx'
        · rw [List.mem_singleton] at hx'
          subst hx'
          exact hs
      have hres := ih (grp ++ [s]) (cnt + wc s) hcs' hclean
        (by rw [List.map_append, List.sum_append, ← hcnt]; simp)
        (fun _ => Nat.lt_of_not_le hth)
      rw [heq]
      refine ⟨hres.1, hres.2.1, hres.2.2.1, ?_⟩
      have h1 := hres.2.2.2
      rw [List.append_assoc] at h1
      simpa using h1

/-- When every candidate passes the word filter, the final pass is exactly
first-occurrence deduplication. -/
theorem dedupFilterAux_eq_pyDedupAux (minw : ℕ) :
    ∀ (l seen : List Text), (∀ s ∈ l, minw ≤ wc s) →
      dedupFilterAux minw seen l = pyDedupAux seen l := by
  intro l
  induction l with
  | nil => intro seen _; rfl
  | cons s rest ih =>
    intro seen h
    have hw : minw ≤ wc s := h s (List.mem_cons_self s rest)
    have h' : ∀ x ∈ rest, minw ≤ wc x := fun x hx => h x (List.mem_cons_of_mem s hx)
    by_cases hs : s ∈ seen
    · have hneg : ¬(s ∉ seen ∧ minw ≤ wc s) := fun hcon => hcon.1 hs
      simp only [dedupFilterAux, pyDedupAux]
      rw [if_neg hneg, if_pos hs]
      exact ih seen h'
    · have hpos : s ∉ seen ∧ minw ≤ wc s := ⟨hs, hw⟩
      simp only [dedupFilterAux, pyDedupAux]
      rw [if_pos hpos, if_neg hs, ih (s :: seen) h']

/-- Elements kept by the final pass satisfy the word filter. -/
theorem mem_dedupFilterAux_wc (minw : ℕ) :
    ∀ (l seen : List Text) (s : Text), s ∈ dedupFilterAux minw seen l → minw ≤ wc s := by
  intro l
  induction l with
  | nil => intro _ s h; cases h
  | cons x rest ih =>
    intro seen s h
    by_cases hx : x ∉ seen ∧ minw ≤ wc x
    · simp only [dedupFilterAux] at h
      rw [if_pos hx] at h
      rcases List.mem_cons.mp h with rfl | h'
      · exact hx.2
      · exact ih (x :: seen) s h'
    · simp only [dedupFilterAux] at h
      rw [if_neg hx] at h
      exact ih seen s h

/-- Elements kept by the final pass come from the candidate list. -/
theorem mem_dedupFilterAux_sub (minw : ℕ) :
    ∀ (l seen : List Text) (s : Text), s ∈ dedupFilterAux minw seen l → s ∈ l := by
  intro l
  induction l with
  | nil => intro _ s h; cases h
  | cons x rest ih =>
    intro seen s h
    by_cases hx : x ∉ seen ∧ minw ≤ wc x
    · simp only [dedupFilterAux] at h
      rw [if_pos hx] at h
      rcases List.mem_cons.mp h with rfl | h'
      · exact List.mem_cons_self _ _
      · exact List.mem_cons_of_mem x (ih (x :: seen) s h')
    · simp only [dedupFilterAux] at h
      rw [if_neg hx] at h
      exact List.mem_cons_of_mem x (ih seen s h)

/-- The dedup scan produces no duplicates and nothing already seen. -/
theorem pyDedupAux_nodup {α : Type} [DecidableEq α] :
    ∀ (l seen : List α),
      (pyDedupAux seen l).Nodup ∧ ∀ x ∈ pyDedupAux seen l, x ∉ seen := by
  intro l
  induction l with
  | nil => intro seen; exact ⟨List.nodup_nil, by simp [pyDedupAux]⟩
  | cons x rest ih =>
    intro seen
    by_cases hx : x ∈ seen
    · rw [pyDedupAux, if_pos hx]
      exact ih seen
    · rw [pyDedupAux, if_neg hx]
      obtain ⟨hnd, hni⟩ := ih (x :: seen)
      refine ⟨List.nodup_cons.mpr ⟨?_, hnd⟩, ?_⟩
      · intro hmem
        exact hni x hmem (List.mem_cons_self x seen)
      · intro y hy
        rcases List.mem_cons.mp hy with rfl | hy'
        · exact hx
        · intro hseen
          exact hni y hy' (List.mem_cons_of_mem x hseen)

/-- Every candidate of the cascade has at least `minw` words. -/
theorem allCandidates_wc (t : Text) (minw : ℕ) :
    ∀ s ∈ allCandidates t minw, minw ≤ wc s := by
  intro s hs
  unfold allCandidates at hs
  have hstage12 : ∀ x ∈ s12of (clean_text t) minw, minw ≤ wc x := by
    intro x hx
    unfold s12of at hx
    rcases List.mem_append.mp hx with hx' | hx'
    · unfold stage1of at hx'
      rw [List.mem_map] at hx'
      obtain ⟨r, hr, rfl⟩ := hx'
      rw [List.mem_filter] at hr
      have := of_decide_eq_true hr.2
      rw [wc_pyStrip]
      exact this
    · by_cases hlen : (stage1of (clean_text t) minw).length < 3
      · rw [if_pos hlen] at hx'
        unfold stage2of at hx'
        rw [List.mem_map] at hx'
        obtain ⟨r, hr, rfl⟩ := hx'
        rw [List.mem_filter] at hr
        have := of_decide_eq_true hr.2
        rw [wc_pyStrip]
        exact this.1
      · rw [if_neg hlen] at hx'
        cases hx'
  rcases List.mem_append.mp hs with hx' | hx'
  · exact hstage12 s hx'
  · by_cases hlen : (s12of (clean_text t) minw).length < 3
    · rw [if_pos hlen] at hx'
      unfold stage3of at hx'
      have hspec := accumScan_spec minw (s12of (clean_text t) minw)
        (sentencesOf (clean_text t)) [] 0 (sentencesOf_clean (clean_text t))
        (by simp) (by simp) (by simp)
      exact hspec.2.2.1 s hx'
    · rw [if_neg hlen] at hx'
      cases hx'

/-- C4: every section returned by `split_sections` has at least `minw` words,
the result has no duplicates, it is the first-occurrence deduplication of the
concatenated stage outputs truncated to 15, and its length is at most 15. -/
theorem c4_split_sections_invariants (t : Text) (minw : ℕ) :
    (∀ s ∈ split_sections t minw, minw ≤ wc s)
    ∧ (split_sections t minw).Nodup
    ∧ split_sections t minw = (pyDedup (allCandidates t minw)).take 15
    ∧ (split_sections t minw).length ≤ 15 := by
  have heq : dedupFilterAux minw [] (allCandidates t minw)
      = pyDedupAux [] (allCandidates t minw) :=
    dedupFilterAux_eq_pyDedupAux minw (allCandidates t minw) [] (allCandidates_wc t minw)
  refine ⟨?_, ?_, ?_, ?_⟩
  · intro s hs
    unfold split_sections at hs
    exact mem_dedupFilterAux_wc minw (allCandidates t minw) [] s
      ((List.take_sublist _ _).subset hs)
  · unfold split_sections
    rw [heq]
    exact (pyDedupAux_nodup (allCandidates t minw) []).1.sublist (List.take_sublist _ _)
  · unfold split_sections pyDedup
    rw [heq]
  · unfold split_sections
    exact List.length_take_le _ _

/-- C3: stage three emits exactly the groups produced at threshold crossings;
the trailing pending group is a suffix of the sentence stream whose
accumulated word count (the sum of its sentences' word counts) stayed below
`minw`, and it is discarded — every section of the final output comes from
stages one and two or from the emitted groups. -/
theorem c3_trailing_group_discarded (t : Text) (minw : ℕ) :
    stage3of minw (s12of (clean_text t) minw) (clean_text t)
      = (accumScan minw (s12of (clean_text t) minw)
          (sentencesOf (clean_text t)) [] 0).1
    ∧ List.IsSuffix
        (accumScan minw (s12of (clean_text t) minw)
          (sentencesOf (clean_text t)) [] 0).2.1
        (sentencesOf (clean_text t))
    ∧ (accumScan minw (s12of (clean_text t) minw)
          (sentencesOf (clean_text t)) [] 0).2.2
        = (((accumScan minw (s12of (clean_text t) minw)
            (sentencesOf (clean_text t)) [] 0).2.1).map wc).sum
    ∧ ((accumScan minw (s12of (clean_text t) minw)
          (sentencesOf (clean_text t)) [] 0).2.1 ≠ []
        → (accumScan minw (s12of (clean_text t) minw)
            (sentencesOf (clean_text t)) [] 0).2.2 < minw)
    ∧ (∀ x ∈ split_sections t minw,
        x ∈ s12of (clean_text t) minw
        ∨ x ∈ stage3of minw (s12of (clean_text t) minw) (clean_text t)) := by
  have hspec := accumScan_spec minw (s12of (clean_text t) minw)
    (sentencesOf (clean_text t)) [] 0 (sentencesOf_clean (clean_text t))
    (by simp) (by simp) (by simp)
  refine ⟨rfl, by simpa using hspec.2.2.2, hspec.1, hspec.2.1, ?_⟩
  intro x hx
  unfold split_sections at hx
  have hmem := mem_dedupFilterAux_sub minw (allCandidates t minw) [] x
    ((List.take_sublist _ _).subset hx)
  unfold allCandidates at hmem
  rcases List.mem_append.mp hmem with h' | h'
  · exact Or.inl h'
  · by_cases hlen : (s12of (clean_text t) minw).length < 3
    · rw [if_pos hlen] at h'
      exact Or.inr h'
    · rw [if_neg hlen] at h'
      cases h'

/-- For a budget of at least three, the truncation step always respects the
budget. -/
theorem truncTitle_length {maxLen : ℤ} (h3 : 3 ≤ maxLen) (title : Text) :
    ((truncTitle maxLen title).length : ℤ) ≤ maxLen := by
  unfold truncTitle
  split_ifs with hlt
  · have h0 : (0 : ℤ) ≤ maxLen - 3 := by omega
    unfold pyTake
    rw [if_pos h0, List.length_append, List.length_take]
    have hdots : ("...".toList : Text).length = 3 := by decide
    rw [hdots]
    have htn : ((maxLen - 3).toNat : ℤ) = maxLen - 3 := Int.toNat_of_nonneg h0
    have hmin : (min (maxLen - 3).toNat title.length : ℤ)
        ≤ (((maxLen - 3).toNat : ℕ) : ℤ) := by
      exact_mod_cast Nat.min_le_left _ _
    push_cast
    omega
  · omega

/-- When the candidate is longer than the budget, the returned title is the
truncation and ends with an ellipsis. -/
theorem truncTitle_ellipsis {maxLen : ℤ} {title : Text}
    (hlt : maxLen < (title.length : ℤ)) :
    truncTitle maxLen title = pyTake (maxLen - 3) title ++ "...".toList
    ∧ List.IsSuffix "...".toList (truncTitle maxLen title) := by
  unfold truncTitle
  rw [if_pos hlt]
  exact ⟨rfl, ⟨pyTake (maxLen - 3) title, rfl⟩⟩

/-- C8 fails on the code as universally quantified: for `max_length = 2` the
Python slice `title[:max_length-3]` is a NEGATIVE slice, so the returned
title has length 31 > 2 for a qualifying 29-character line. -/
def c8t : Text := "Employee Onboarding Checklist".toList

/-- Counterexample to C8 at `max_length = 2`. -/
theorem c8_title_counterexample :
    (extract_title_from_text c8t 2).length = 31
    ∧ ¬ ((extract_title_from_text c8t 2).length ≤ 2) := by
  exact ⟨by decide, by decide⟩

/-- C8 amended: for every `max_length ≥ 3` the returned title either is the
literal "Content Section" (returned exactly when no line qualifies and the
twelve-word fallback is empty, whatever the budget) or has character length
at most `max_length`; whenever the candidate line or fallback exceeded the
budget, the result is the truncation and ends with "...". -/
theorem c8_title_amended (t : Text) (maxLen : ℤ) (h3 : 3 ≤ maxLen) :
    (extract_title_from_text t maxLen = "Content Section".toList
      ∨ ((extract_title_from_text t maxLen).length : ℤ) ≤ maxLen)
    ∧ (titleQual t = none → fallbackTitle t = [] →
        extract_title_from_text t maxLen = "Content Section".toList)
    ∧ (∀ c, titleQual t = some c → maxLen < (c.length : ℤ) →
        List.IsSuffix "...".toList (extract_title_from_text t maxLen))
    ∧ (titleQual t = none → maxLen < ((fallbackTitle t).length : ℤ) →
        List.IsSuffix "...".toList (extract_title_from_text t maxLen)) := by
  cases hq : titleQual t with
  | some ln =>
    have hres : extract_title_from_text t maxLen = truncTitle maxLen ln := by
      unfold extract_title_from_text
      rw [hq]
    refine ⟨Or.inr (by rw [hres]; exact truncTitle_length h3 ln), ?_, ?_, ?_⟩
    · intro hc; exact Option.noConfusion hc
    · intro c hc hlt
      have hcl : c = ln := (Option.some_inj.mp hc).symm
      subst hcl
      rw [hres]
      exact (truncTitle_ellipsis hlt).2
    · intro hc; exact Option.noConfusion hc
  | none =>
    have hres : extract_title_from_text t maxLen
        = (if truncTitle maxLen (fallbackTitle t) = [] then "Content Section".toList
           else truncTitle maxLen (fallbackTitle t)) := by
      unfold extract_title_from_text
      rw [hq]
    refine ⟨?_, ?_, ?_, ?_⟩
    · rw [hres]
      split_ifs with hz
      · exact Or.inl rfl
      · exact Or.inr (truncTitle_length h3 (fallbackTitle t))
    · intro _ hfb
      rw [hres, hfb]
      have hz : truncTitle maxLen ([] : Text) = [] := by
        unfold truncTitle
        rw [if_neg (by simp; omega)]
      rw [hz]
      simp
    · intro c hc; exact Option.noConfusion hc
    · intro _ hlt
      obtain ⟨he, hsuf⟩ := truncTitle_ellipsis hlt
      have hne : truncTitle maxLen (fallbackTitle t) ≠ [] := by
        rw [he]
        simp
      rw [hres, if_neg hne]
      exact hsuf

/-- Witness for the amended C8 at a concrete input and the default budget. -/
theorem c8_title_amended_witness :
    (3 : ℤ) ≤ 80
    ∧ (extract_title_from_text c8t 80 = "Content Section".toList
        ∨ ((extract_title_from_text c8t 80).length : ℤ) ≤ 80) :=
  ⟨by decide, (c8_title_amended c8t 80 (by decide)).1⟩

/-- Every qualifying sentence of the summarizer is clean. -/
theorem qualSentences_clean (t : Text) : ∀ s ∈ qualSentences t, CleanSent s := by
  intro s hs
  unfold qualSentences at hs
  rw [List.mem_map] at hs
  obtain ⟨r, hr, rfl⟩ := hs
  rw [List.mem_filter] at hr
  have hcond := of_decide_eq_true hr.2
  exact ⟨hcond.1, fun d hd => pyStrip_last r d hd⟩

/-- The stable descending sort permutes its input. -/
theorem pySortDesc_perm {α K : Type} [LinearOrder K] (key : α → K) (l : List α) :
    List.Perm (pySortDesc key l) l := by
  unfold pySortDesc pySortDescDec
  have h := (List.perm_insertionSort (tieRel key) l.enum).map Prod.snd
  rw [List.enum_map_snd] at h
  exact h

/-- The greedy selection only picks sentences from its input list. -/
theorem greedyPick_mem (maxLen : ℕ) :
    ∀ (l : List Text) (cur : ℕ) (x : Text), x ∈ greedyPick maxLen l cur → x ∈ l := by
  intro l
  induction l with
  | nil => intro _ x h; cases h
  | cons s rest ih =>
    intro cur x h
    by_cases hfit : cur + wc s ≤ maxLen
    · rw [greedyPick, if_pos hfit] at h
      rcases List.mem_cons.mp h with rfl | h'
      · exact List.mem_cons_self _ _
      · exact List.mem_cons_of_mem s (ih (cur + wc s) x h')
    · rw [greedyPick, if_neg hfit] at h
      cases h

/-- The greedy selection never exceeds the budget. -/
theorem greedyPick_sum (maxLen : ℕ) :
    ∀ (l : List Text) (cur : ℕ), cur ≤ maxLen →
      cur + ((greedyPick maxLen l cur).map wc).sum ≤ maxLen := by
  intro l
  induction l with
  | nil => intro cur h; simpa [greedyPick] using h
  | cons s rest ih =>
    intro cur h
    by_cases hfit : cur + wc s ≤ maxLen
    · rw [greedyPick, if_pos hfit]
      have := ih (cur + wc s) hfit
      simp only [List.map_cons, List.sum_cons]
      omega
    · rw [greedyPick, if_neg hfit]
      simpa using h

/-- A selected sentence is a qualifying sentence. -/
theorem summarySelection_mem (t : Text) (maxLen : ℕ) :
    ∀ x ∈ summarySelection t maxLen, x ∈ qualSentences t := by
  intro x hx
  have h1 : x ∈ summarySorted t := greedyPick_mem maxLen (summarySorted t) 0 x hx
  unfold summarySorted at h1
  rw [List.mem_map] at h1
  obtain ⟨pr, hpr, rfl⟩ := h1
  have h2 : pr ∈ sentencePairs t := (pySortDesc_perm Prod.snd (sentencePairs t)).mem_iff.mp hpr
  unfold sentencePairs at h2
  rw [List.mem_map] at h2
  obtain ⟨p, hp, rfl⟩ := h2
  have h3 : p.2 ∈ (qualSentences t).enum.map Prod.snd := List.mem_map_of_mem Prod.snd hp
  rw [List.enum_map_snd] at h3
  exact h3

/-- C2 amended: the summarizer returns the input unchanged when the input has
at most 30 words; when the input is longer, more than two qualifying
sentences remain AND the greedy pass selects at least one sentence, the
summary's word count is within the budget.  (The two excluded cases return
text that ignores the budget: the raw input, or the first two sentences.) -/
theorem c2_summarize_amended (t : Text) (maxLen : ℕ) :
    (wc t ≤ 30 → summarize_text t maxLen = t)
    ∧ (30 < wc t → 2 < (qualSentences t).length → summarySelection t maxLen ≠ [] →
        wc (summarize_text t maxLen) ≤ maxLen) := by
  constructor
  · intro h
    unfold summarize_text
    rw [if_pos h]
  · intro h30 hq hne
    have hn30 : ¬ (wc t ≤ 30) := by omega
    have hnq : ¬ ((qualSentences t).length ≤ 2) := by omega
    cases hsel : summarySelection t maxLen with
    | nil => exact absurd hsel hne
    | cons a as =>
      have hres : summarize_text t maxLen = joinDot (a :: as) ++ ['.'] := by
        unfold summarize_text
        rw [if_neg hn30]
        simp only [if_neg hnq]
        rw [hsel]
      rw [hres]
      have hclean : ∀ x ∈ (a :: as), CleanSent x := by
        intro x hx
        rw [← hsel] at hx
        exact qualSentences_clean t x (summarySelection_mem t maxLen x hx)
      rw [wc_joinDot_dot (a :: as) hclean (List.cons_ne_nil a as)]
      have := greedyPick_sum maxLen (summarySorted t) 0 (Nat.zero_le maxLen)
      unfold summarySelection at hsel
      rw [hsel] at this
      omega

/-- A 31-word text with no sentence boundary: more than 30 words but only one
qualifying sentence, so the summarizer returns it unchanged. -/
def c2t : Text :=
  "aa aa aa aa aa aa aa aa aa aa aa aa aa aa aa aa aa aa aa aa aa aa aa aa aa aa aa aa aa aa aa".toList

/-- Counterexample to C2 at budget 5: the input has 31 > 30 words, yet the
returned summary is the raw input with 31 > 5 words. -/
theorem c2_summarize_counterexample :
    30 < wc c2t ∧ summarize_text c2t 5 = c2t ∧ ¬ (wc (summarize_text c2t 5) ≤ 5) :=
  ⟨by decide, by decide, by decide⟩

/-- A 33-word text with three qualifying sentences. -/
def c2ta : Text :=
  "aa bb cc dd ee ff gg hh ii jj kk. aa bb cc dd ee ff gg hh ii jj kk. aa bb cc dd ee ff gg hh ii jj kk.".toList

/-- Witness for the amended C2 on a concrete text at the default budget. -/
theorem c2_summarize_amended_witness :
    30 < wc c2ta ∧ 2 < (qualSentences c2ta).length
    ∧ summarySelection c2ta 200 ≠ []
    ∧ wc (summarize_text c2ta 200) ≤ 200 :=
  ⟨by decide, by decide, by decide,
    (c2_summarize_amended c2ta 200).2 (by decide) (by decide) (by decide)⟩

/-- A substring of a text is a substring of any extension of it. -/
theorem infix_append_right {a x : Text} (y : Text) (h : a <:+: x) :
    a <:+: x ++ y := by
  obtain ⟨u, v, rfl⟩ := h
  exact ⟨u, v ++ y, by simp⟩

/-- `countP` is monotone along a pointwise implication. -/
theorem countP_le_countP {α : Type} (p q : α → Bool) :
    ∀ l : List α, (∀ a ∈ l, p a = true → q a = true) → l.countP p ≤ l.countP q := by
  intro l
  induction l with
  | nil => intro _; simp
  | cons a as ih =>
    intro h
    rw [List.countP_cons, List.countP_cons]
    have hih := ih (fun x hx => h x (List.mem_cons_of_mem a hx))
    by_cases hp : p a = true
    · rw [if_pos hp, if_pos (h a (List.mem_cons_self a as) hp)]
      omega
    · rw [if_neg hp]
      by_cases hq : q a = true
      · rw [if_pos hq]; omega
      · rw [if_neg hq]; omega

/-- Substring-match counts never decrease when text is appended. -/
theorem countContains_mono (kws : List Text) (x y : Text) :
    countContains kws x ≤ countContains kws (x ++ y) := by
  unfold countContains
  apply countP_le_countP
  intro kw _ h
  rw [decide_eq_true_eq] at h
  rw [decide_eq_true_eq]
  exact infix_append_right y h

/-- Phrase detection never turns off when text is appended. -/
theorem anyContains_mono (kws : List Text) (x y : Text)
    (h : anyContains kws x = true) : anyContains kws (x ++ y) = true := by
  unfold anyContains at h ⊢
  rw [List.any_eq_true] at h ⊢
  obtain ⟨kw, hkw, hin⟩ := h
  rw [decide_eq_true_eq] at hin
  exact ⟨kw, hkw, by rw [decide_eq_true_eq]; exact infix_append_right y hin⟩

/-- Lowercasing distributes over appending. -/
theorem lower_append (x y : Text) : lower (x ++ y) = lower x ++ lower y := by
  unfold lower
  rw [List.map_append]

/-- The additive total never decreases when text is appended to the section. -/
theorem relBase_append_mono (sec e task persona : Text) :
    relBase sec task persona ≤ relBase (sec ++ e) task persona := by
  unfold relBase
  rw [lower_append]
  have hq2 : (0 : ℚ) ≤ 2 := by norm_num
  have hq32 : (0 : ℚ) ≤ 3 / 2 := by norm_num
  have h1 : (countContains (extract_keywords (lower task)) (lower sec) : ℚ)
      ≤ (countContains (extract_keywords (lower task)) (lower sec ++ lower e) : ℚ) := by
    exact_mod_cast countContains_mono _ (lower sec) (lower e)
  have h2 : (countContains (extract_keywords (lower persona)) (lower sec) : ℚ)
      ≤ (countContains (extract_keywords (lower persona)) (lower sec ++ lower e) : ℚ) := by
    exact_mod_cast countContains_mono _ (lower sec) (lower e)
  have h4 : (countContains action_words (lower sec) : ℚ)
      ≤ (countContains action_words (lower sec ++ lower e) : ℚ) := by
    exact_mod_cast countContains_mono _ (lower sec) (lower e)
  have h3 : (domain_keywords.map (fun dk =>
      if 0 < countContains dk.2 (lower task ++ ' ' :: lower persona) then
        (countContains dk.2 (lower sec) : ℚ)
      else 0)).sum
      ≤ (domain_keywords.map (fun dk =>
      if 0 < countContains dk.2 (lower task ++ ' ' :: lower persona) then
        (countContains dk.2 (lower sec ++ lower e) : ℚ)
      else 0)).sum := by
    apply List.sum_le_sum
    intro dk _
    split_ifs
    · exact_mod_cast countContains_mono dk.2 (lower sec) (lower e)
    · exact le_refl 0
  have g1 := mul_le_mul_of_nonneg_right h1 hq2
  have g2 := mul_le_mul_of_nonneg_right h2 hq32
  have g4 := mul_le_mul_of_nonneg_right h4 hq32
  linarith

/-- The step function underlying the length multiplier is monotone. -/
theorem lenMult_le_of_wc {a b : ℕ} (hab : a ≤ b) :
    (if 50 < a then (6 : ℚ) / 5 else if a < 20 then 4 / 5 else 1)
      ≤ (if 50 < b then (6 : ℚ) / 5 else if b < 20 then 4 / 5 else 1) := by
  by_cases h1 : 50 < a
  · rw [if_pos h1, if_pos (by omega)]
  · rw [if_neg h1]
    by_cases h2 : a < 20
    · rw [if_pos h2]
      by_cases h3 : 50 < b
      · rw [if_pos h3]; norm_num
      · rw [if_neg h3]
        by_cases h4 : b < 20
        · rw [if_pos h4]
        · rw [if_neg h4]; norm_num
    · rw [if_neg h2]
      have h3 : ¬ b < 20 := by omega
      by_cases h4 : 50 < b
      · rw [if_pos h4]; norm_num
      · rw [if_neg h4, if_neg h3]

/-- The length multiplier never decreases when text is appended. -/
theorem lenMult_append_mono (sec e : Text) : lenMult sec ≤ lenMult (sec ++ e) := by
  unfold lenMult
  exact lenMult_le_of_wc (wc_mono sec e)

/-- The phrase multiplier never decreases when text is appended. -/
theorem phraseMult_append_mono (sec e : Text) :
    phraseMult sec ≤ phraseMult (sec ++ e) := by
  unfold phraseMult
  rw [lower_append]
  by_cases h : anyContains instructional_phrases (lower sec) = true
  · rw [if_pos h, if_pos (anyContains_mono _ _ _ h)]
  · rw [if_neg h]
    split_ifs <;> norm_num

/-- Appending any text to a section never decreases its relevance score. -/
theorem calculate_relevance_score_append_mono (sec e task persona : Text) :
    calculate_relevance_score sec task persona
      ≤ calculate_relevance_score (sec ++ e) task persona := by
  rw [calculate_relevance_score_decomp, calculate_relevance_score_decomp]
  have hb := relBase_append_mono sec e task persona
  have hb0 := relBase_nonneg sec task persona
  have hm1 := lenMult_append_mono sec e
  have hm10 := le_of_lt (lenMult_pos sec)
  have hm2 := phraseMult_append_mono sec e
  have hm20 := le_of_lt (phraseMult_pos sec)
  have hb0' : (0 : ℚ) ≤ relBase (sec ++ e) task persona := relBase_nonneg _ _ _
  have hm10' : (0 : ℚ) ≤ lenMult (sec ++ e) := le_of_lt (lenMult_pos _)
  have step1 : relBase sec task persona * lenMult sec
      ≤ relBase (sec ++ e) task persona * lenMult (sec ++ e) :=
    mul_le_mul hb hm1 hm10 hb0'
  exact mul_le_mul step1 hm2 hm20 (mul_nonneg hb0' hm10')

/-- `n` further occurrences of a keyword, each preceded by a space. -/
def keywordCopies (k : Text) (n : ℕ) : Text :=
  (List.replicate n (' ' :: k)).flatten

/-- C6: for a fixed task and persona, appending additional occurrences of a
keyword of the task's keyword profile to the section text never decreases the
relevance score. -/
theorem c6_keyword_append_monotone (s t p k : Text) (n : ℕ)
    (_h : k ∈ extract_keywords (lower t)) :
    calculate_relevance_score s t p
      ≤ calculate_relevance_score (s ++ keywordCopies k n) t p :=
  calculate_relevance_score_append_mono s (keywordCopies k n) t p

/-- Witness for C6 at a concrete task, keyword and section. -/
theorem c6_keyword_append_monotone_witness :
    "form".toList ∈ extract_keywords (lower "form".toList)
    ∧ calculate_relevance_score "fill".toList "form".toList "hr".toList
        ≤ calculate_relevance_score ("fill".toList ++ keywordCopies "form".toList 1)
            "form".toList "hr".toList :=
  ⟨by decide, c6_keyword_append_monotone _ _ _ _ 1 (by decide)⟩
